import Mathlib

/-!
Verification of the `live` configuration library core against its
natural-language specification.

The development shallowly embeds the Rust source:

* `src/holder/*`           — the atomic `Store` (entries, metadata, policies,
  insert / remove / replace_all, change events);
* `src/controller/dir.rs`  — `LiveDir::do_scan` (directory reconciliation);
* `src/controller/live.rs` — `Live::load`;
* `src/controller/pattern.rs` — `KeyPattern` key extraction;
* `src/loader/source/file.rs` — `FileSource::resolve_secure` / `read`;
* `src/signal/worker.rs`   — the debouncer's coalescing step;
* `src/signal/target.rs`   — `CompiledTarget::matches`.

Rust `HashMap`s are modelled as association lists with `HashMap` lookup /
insert / remove semantics; `Arc<T>` is modelled as a value tagged with an
allocation identity (fresh identities are drawn from a per-store counter, so
`Arc::ptr_eq` is identity-number equality); `Instant::now` is a logical clock;
the `u64` version counter is a `Nat` (the code never wraps it in practice and
no claim concerns overflow).  The broadcast event channel is modelled as the
list of events sent (delivery is best-effort in the code; the claims only
concern which events are emitted).
-/

namespace LiveSpec

/-! ## Association-list model of `HashMap<String, α>` -/

/-- Lookup: first binding wins (bindings are unique in every reachable map,
mirroring `HashMap`). -/
def AList.get {α : Type} (m : List (String × α)) (k : String) : Option α :=
  match m with
  | [] => none
  | (k', v) :: rest => if k' = k then some v else AList.get rest k

/-- `HashMap::insert`: replace the binding for `k`, or append a new one. -/
def AList.insert {α : Type} (m : List (String × α)) (k : String) (v : α) :
    List (String × α) :=
  match m with
  | [] => [(k, v)]
  | (k', v') :: rest =>
    if k' = k then (k, v) :: rest else (k', v') :: AList.insert rest k v

/-- `HashMap::remove`: drop every binding for `k` (at most one exists in a
reachable map). -/
def AList.eraseKey {α : Type} (m : List (String × α)) (k : String) :
    List (String × α) :=
  match m with
  | [] => []
  | (k', v) :: rest =>
    if k' = k then AList.eraseKey rest k else (k', v) :: AList.eraseKey rest k

theorem AList.get_insert_self {α : Type} (m : List (String × α)) (k : String) (v : α) :
    AList.get (AList.insert m k v) k = some v := by
  induction m with
  | nil => simp [AList.insert, AList.get]
  | cons hd tl ih =>
    by_cases h : hd.1 = k
    · simp [AList.insert, AList.get, h]
    · simpa [AList.insert, AList.get, h] using ih

theorem AList.get_insert_ne {α : Type} (m : List (String × α)) (k k' : String) (v : α)
    (h : k ≠ k') : AList.get (AList.insert m k v) k' = AList.get m k' := by
  induction m with
  | nil => simp [AList.insert, AList.get, h]
  | cons hd tl ih =>
    by_cases hh : hd.1 = k
    · simp [AList.insert, AList.get, hh, h]
    · simp [AList.insert, AList.get, hh]
      by_cases hk : hd.1 = k'
      · simp [hk]
      · simpa [hk] using ih

theorem AList.get_eraseKey_self {α : Type} (m : List (String × α)) (k : String) :
    AList.get (AList.eraseKey m k) k = none := by
  induction m with
  | nil => simp [AList.eraseKey, AList.get]
  | cons hd tl ih =>
    by_cases h : hd.1 = k
    · simpa [AList.eraseKey, h] using ih
    · simpa [AList.eraseKey, h, AList.get] using ih

theorem AList.get_eraseKey_ne {α : Type} (m : List (String × α)) (k k' : String)
    (h : k ≠ k') : AList.get (AList.eraseKey m k) k' = AList.get m k' := by
  induction m with
  | nil => simp [AList.eraseKey, AList.get]
  | cons hd tl ih =>
    by_cases hh : hd.1 = k
    · simpa [AList.eraseKey, hh, AList.get, h] using ih
    · by_cases hk : hd.1 = k'
      · simp [AList.eraseKey, hh, AList.get, hk, Ne.symm h]
      · simpa [AList.eraseKey, hh, AList.get, hk] using ih

/-! ## Data model (`src/holder/{policy,meta,entry,error,event}.rs`) -/

/-- `UnloadPolicy` — retention policy of an entry. -/
inductive UnloadPolicy where
  | Removable
  | Persistent
deriving DecidableEq, Repr

/-- `entry.meta.policy == UnloadPolicy::Persistent`. -/
def UnloadPolicy.isPersistent : UnloadPolicy → Bool
  | .Persistent => true
  | .Removable => false

theorem UnloadPolicy.isPersistent_iff (p : UnloadPolicy) :
    p.isPersistent = true ↔ p = .Persistent := by
  cases p <;> simp [UnloadPolicy.isPersistent]

/-- `Arc<T>`: a value tagged with its allocation identity.  `Arc::clone`
copies the structure (same `id`); `Arc::new` draws a fresh `id`. -/
structure Arc (T : Type) where
  id : Nat
  val : T
deriving DecidableEq, Repr

/-- `Arc::ptr_eq`. -/
def Arc.ptrEq {T : Type} (a b : Arc T) : Bool := a.id == b.id

/-- `Meta` — metadata of a config entry (`PathBuf` as `String`, `Instant`
as a logical clock value). -/
structure Meta where
  source : String
  loaded_at : Nat
  version : Nat
  policy : UnloadPolicy
deriving DecidableEq, Repr

/-- `Entry<T>` — value plus metadata. -/
structure Entry (T : Type) where
  value : Arc T
  meta : Meta
deriving DecidableEq, Repr

/-- `HoldError` — store error taxonomy. -/
inductive HoldError where
  | PersistentRemoval (key : String)
  | NotFound (key : String)
  | ConcurrentlyRemoved (key : String)
deriving DecidableEq, Repr

/-- `HoldEvent<T>` — change events broadcast by the store. -/
inductive HoldEvent (T : Type) where
  | Loaded (key : String) (value : Arc T) (meta : Meta)
  | Updated (key : String) (old new : Arc T) (meta : Meta)
  | Removed (key : String) (value : Arc T)
  | Retained (key : String) (error : HoldError)
deriving DecidableEq, Repr

/-- `Store<T>` (`src/holder/store/mod.rs`): the RCU map (sequential model:
one writer at a time, so the CAS always succeeds first try), the global
version counter, an allocation counter for `Arc` identities, a logical
clock for `Instant::now`, and the list of events sent on the broadcast
channel (the `events` feature enabled). -/
structure Store (T : Type) where
  inner : List (String × Entry T)
  version : Nat
  arcCtr : Nat
  clock : Nat
  events : List (HoldEvent T)
deriving DecidableEq, Repr

/-- `Store::new`. -/
def Store.new (T : Type) : Store T :=
  { inner := [], version := 0, arcCtr := 0, clock := 0, events := [] }

/-- `Store::get` (`read.rs`): clone of the `Arc` held by the entry. -/
def Store.get {T : Type} (s : Store T) (key : String) : Option (Arc T) :=
  (AList.get s.inner key).map (fun e => e.value)

/-- `Store::get_meta` (`read.rs`). -/
def Store.get_meta {T : Type} (s : Store T) (key : String) : Option Meta :=
  (AList.get s.inner key).map (fun e => e.meta)

/-! ## `Store::insert` and `Store::remove` (`src/holder/store/write.rs`) -/

/-- `Store::insert`: allocate a fresh `Arc` and version, publish the new
entry via RCU, then emit `Updated` (key existed) or `Loaded` (fresh key).
Returns the installed shared value. -/
def Store.insert {T : Type} (s : Store T) (key : String) (v : T)
    (source : String) (policy : UnloadPolicy) : Store T × Arc T :=
  let value : Arc T := ⟨s.arcCtr, v⟩
  let version := s.version + 1
  let meta : Meta := ⟨source, s.clock, version, policy⟩
  let newEntry : Entry T := ⟨value, meta⟩
  let oldEntry := AList.get s.inner key
  let event :=
    match oldEntry with
    | some old => HoldEvent.Updated key old.value value meta
    | none => HoldEvent.Loaded key value meta
  (⟨AList.insert s.inner key newEntry, version, s.arcCtr + 1, s.clock + 1,
    s.events ++ [event]⟩, value)

/-- `Store::remove`: snapshot-probe (`NotFound` / `PersistentRemoval`, the
latter emitting `Retained`), then RCU removal.  In the sequential model the
entry found by the probe is still present at the RCU step, so
`ConcurrentlyRemoved` does not arise. -/
def Store.remove {T : Type} (s : Store T) (key : String) :
    Store T × Except HoldError (Arc T) :=
  match AList.get s.inner key with
  | none => (s, .error (.NotFound key))
  | some entry =>
    if entry.meta.policy.isPersistent then
      ({ s with
          events := s.events ++
            [HoldEvent.Retained key (HoldError.PersistentRemoval key)] },
        .error (.PersistentRemoval key))
    else
      ({ s with
          inner := AList.eraseKey s.inner key,
          events := s.events ++ [HoldEvent.Removed key entry.value] },
        .ok entry.value)

/-! ## `Store::replace_all` (`src/holder/store/replace.rs`) -/

/-- The `for (key, (value, source, policy)) in entries` loop of
`replace_all`: build `new_entries`, allocating a fresh version, `Arc` and
timestamp per request entry.  The accumulator mirrors the `HashMap` insert
(a later duplicate key overwrites an earlier one). -/
def buildNew {T : Type} :
    List (String × T × String × UnloadPolicy) → List (String × Entry T) →
    Nat → Nat → Nat → List (String × Entry T) × Nat × Nat × Nat
  | [], acc, ver, arc, clk => (acc, ver, arc, clk)
  | (key, v, src, pol) :: rest, acc, ver, arc, clk =>
    let version := ver + 1
    let entry : Entry T := ⟨⟨arc, v⟩, ⟨src, clk, version, pol⟩⟩
    buildNew rest (AList.insert acc key entry) version (arc + 1) (clk + 1)

/-- `emit_replace_events`: `Loaded`/`Updated` for requested entries
(`Updated` only when the stored `Arc` changed identity), then
`Removed`/`Retained` for prior keys absent from the request. -/
def replaceEvents {T : Type} (oldMap newEntries : List (String × Entry T))
    (providedKeys : List String) : List (HoldEvent T) :=
  (newEntries.filterMap fun p =>
    match AList.get oldMap p.1 with
    | some oldEntry =>
      if Arc.ptrEq oldEntry.value p.2.value then none
      else some (HoldEvent.Updated p.1 oldEntry.value p.2.value p.2.meta)
    | none => some (HoldEvent.Loaded p.1 p.2.value p.2.meta)) ++
  (oldMap.filterMap fun p =>
    if providedKeys.contains p.1 then none
    else if p.2.meta.policy.isPersistent then
      some (HoldEvent.Retained p.1 (HoldError.PersistentRemoval p.1))
    else some (HoldEvent.Removed p.1 p.2.value))

/-- `Store::replace_all`: build `new_entries` with fresh versions, then one
RCU publish of `new_entries` plus every `Persistent` prior entry whose key
is not requested; finally emit the replace events. -/
def Store.replace_all {T : Type} (s : Store T)
    (entries : List (String × T × String × UnloadPolicy)) : Store T :=
  let b := buildNew entries [] s.version s.arcCtr s.clock
  let newEntries := b.1
  let retained := s.inner.filter fun p =>
    (AList.get newEntries p.1).isNone && p.2.meta.policy.isPersistent
  let providedKeys := entries.map (fun e => e.1)
  { inner := newEntries ++ retained,
    version := b.2.1, arcCtr := b.2.2.1, clock := b.2.2.2,
    events := s.events ++ replaceEvents s.inner newEntries providedKeys }

/-! ## Operation sequences over one store -/

/-- One store write operation. -/
inductive StoreOp (T : Type) where
  | insertOp (key : String) (v : T) (source : String) (policy : UnloadPolicy)
  | removeOp (key : String)
  | replaceAllOp (entries : List (String × T × String × UnloadPolicy))

/-- State transition of one operation. -/
def Store.applyOp {T : Type} (s : Store T) : StoreOp T → Store T
  | .insertOp key v src pol => (s.insert key v src pol).1
  | .removeOp key => (s.remove key).1
  | .replaceAllOp entries => s.replace_all entries

/-- Number of versions the operation allocates from the global counter
(`insert`: one `fetch_add`; `remove`: none; `replace_all`: one per request
entry). -/
def StoreOp.allocCount {T : Type} : StoreOp T → Nat
  | .insertOp _ _ _ _ => 1
  | .removeOp _ => 0
  | .replaceAllOp entries => entries.length

/-- Run a sequence of operations from `s`, collecting, in allocation order,
every version number drawn from the global counter. -/
def Store.runOps {T : Type} (s : Store T) :
    List (StoreOp T) → Store T × List Nat
  | [] => (s, [])
  | op :: rest =>
    let out := Store.runOps (s.applyOp op) rest
    (out.1, List.range' (s.version + 1) op.allocCount ++ out.2)

/-! ## Generic association-list lemmas -/

theorem AList.get_append {α : Type} (m m' : List (String × α)) (k : String) :
    AList.get (m ++ m') k =
      match AList.get m k with
      | some v => some v
      | none => AList.get m' k := by
  induction m with
  | nil => simp [AList.get]
  | cons hd tl ih =>
    by_cases h : hd.1 = k
    · simp [AList.get, h]
    · simpa [AList.get, h] using ih

theorem AList.get_mem {α : Type} {m : List (String × α)} {k : String} {v : α}
    (h : AList.get m k = some v) : (k, v) ∈ m := by
  induction m with
  | nil => simp [AList.get] at h
  | cons hd tl ih =>
    by_cases hh : hd.1 = k
    · simp [AList.get, hh] at h
      have : (k, v) = hd := by
        cases hd
        simp_all
      rw [this]
      exact List.mem_cons_self _ _

    · simp [AList.get, hh] at h
      exact List.mem_cons_of_mem _ (ih h)

theorem AList.mem_insert_cases {α : Type} {m : List (String × α)} {k : String} {v : α}
    {p : String × α} (h : p ∈ AList.insert m k v) : p = (k, v) ∨ p ∈ m := by
  induction m with
  | nil => simpa [AList.insert] using h
  | cons hd tl ih =>
    by_cases hh : hd.1 = k
    · simp [AList.insert, hh] at h
      rcases h with h | h
      · exact Or.inl h
      · exact Or.inr (List.mem_cons_of_mem _ h)
    · simp [AList.insert, hh] at h
      rcases h with h | h
      · exact Or.inr (by simp [h])
      · rcases ih h with h' | h'
        · exact Or.inl h'
        · exact Or.inr (List.mem_cons_of_mem _ h')

theorem AList.mem_eraseKey {α : Type} {m : List (String × α)} {k : String}
    {p : String × α} (h : p ∈ AList.eraseKey m k) : p ∈ m := by
  induction m with
  | nil => simp [AList.eraseKey] at h
  | cons hd tl ih =>
    by_cases hh : hd.1 = k
    · simp [AList.eraseKey, hh] at h
      exact List.mem_cons_of_mem _ (ih h)
    · simp [AList.eraseKey, hh] at h
      rcases h with h | h
      · exact (by simp [h])
      · exact List.mem_cons_of_mem _ (ih h)

theorem AList.get_isSome_iff_mem_keys {α : Type} (m : List (String × α)) (k : String) :
    (AList.get m k).isSome ↔ k ∈ m.map Prod.fst := by
  induction m with
  | nil => simp [AList.get]
  | cons hd tl ih =>
    by_cases hh : hd.1 = k
    · simp [AList.get, hh]
    · simp [AList.get, hh, ih, Ne.symm hh]

/-! ## Claim C2: `Store::remove` error and success contract -/

/-- Claim C2: for every store state and key `k`, `remove k` returns
`NotFound` when `k` is absent (store untouched), returns
`PersistentRemoval` — emitting a `Retained` event — when the entry's policy
is `Persistent` (stored map untouched), and otherwise removes the entry and
returns its value. -/
theorem claim_C2_remove_contract {T : Type} (s : Store T) (key : String) :
    (AList.get s.inner key = none →
      s.remove key = (s, .error (.NotFound key))) ∧
    (∀ e, AList.get s.inner key = some e → e.meta.policy = .Persistent →
      s.remove key =
        ({ s with
            events := s.events ++
              [HoldEvent.Retained key (HoldError.PersistentRemoval key)] },
          .error (.PersistentRemoval key))) ∧
    (∀ e, AList.get s.inner key = some e → e.meta.policy = .Removable →
      (s.remove key).2 = .ok e.value ∧
      AList.get (s.remove key).1.inner key = none ∧
      ∀ k', k' ≠ key →
        AList.get (s.remove key).1.inner k' = AList.get s.inner k') := by
  refine ⟨fun h => by simp [Store.remove, h], fun e he hp => ?_, fun e he hp => ?_⟩
  · simp [Store.remove, he, hp, UnloadPolicy.isPersistent]
  · refine ⟨by simp [Store.remove, he, hp, UnloadPolicy.isPersistent], ?_, fun k' hk' => ?_⟩
    · simp [Store.remove, he, hp, UnloadPolicy.isPersistent, AList.get_eraseKey_self]
    · simp [Store.remove, he, hp, UnloadPolicy.isPersistent,
        AList.get_eraseKey_ne _ _ _ (Ne.symm hk')]

/-- Witness for claim C2: a persistent entry is retained with a `Retained`
event, and a removable entry is removed with its value returned. -/
theorem claim_C2_remove_contract_witness :
    ((⟨[("k", ⟨⟨0, (7 : Nat)⟩, ⟨"p", 0, 1, .Persistent⟩⟩)], 1, 1, 1, []⟩ :
        Store Nat).remove "k" =
      (⟨[("k", ⟨⟨0, (7 : Nat)⟩, ⟨"p", 0, 1, .Persistent⟩⟩)], 1, 1, 1,
          [HoldEvent.Retained "k" (HoldError.PersistentRemoval "k")]⟩,
        .error (.PersistentRemoval "k"))) ∧
    ((⟨[("k", ⟨⟨0, (7 : Nat)⟩, ⟨"p", 0, 1, .Removable⟩⟩)], 1, 1, 1, []⟩ :
        Store Nat).remove "k").2 = .ok ⟨0, 7⟩ :=
  ⟨(claim_C2_remove_contract _ "k").2.1 ⟨⟨0, 7⟩, ⟨"p", 0, 1, .Persistent⟩⟩
      (by decide) rfl,
    ((claim_C2_remove_contract _ "k").2.2 ⟨⟨0, 7⟩, ⟨"p", 0, 1, .Removable⟩⟩
      (by decide) rfl).1⟩

/-! ## Filter lemmas for the `Persistent`-retention step -/

theorem AList.get_filter_of_get {α : Type} (p : String × α → Bool)
    {m : List (String × α)} {k : String} {v : α}
    (hp : p (k, v) = true) (h : AList.get m k = some v) :
    AList.get (m.filter p) k = some v := by
  induction m with
  | nil => simp [AList.get] at h
  | cons hd tl ih =>
    by_cases hh : hd.1 = k
    · have hv : hd.2 = v := by simpa [AList.get, hh] using h
      have hdp : hd = (k, v) := by cases hd; simp_all
      simp [hdp, List.filter, hp, AList.get]
    · cases hph : p hd with
      | true =>
        have := ih (by simpa [AList.get, hh] using h)
        simpa [List.filter, hph, AList.get, hh] using this
      | false =>
        have := ih (by simpa [AList.get, hh] using h)
        simpa [List.filter, hph] using this

theorem AList.get_filter_isSome {α : Type} (p : String × α → Bool)
    (m : List (String × α)) (k : String)
    (h : (AList.get (m.filter p) k).isSome) : (AList.get m k).isSome := by
  induction m with
  | nil => simp [AList.get] at h
  | cons hd tl ih =>
    by_cases hh : hd.1 = k
    · simp [AList.get, hh]
    · cases hph : p hd with
      | true =>
        simp [List.filter, hph, AList.get, hh] at h
        simpa [AList.get, hh] using ih h
      | false =>
        simp [List.filter, hph] at h
        simpa [AList.get, hh] using ih h

theorem AList.get_filter_none {α : Type} (p : String × α → Bool)
    (m : List (String × α)) (k : String) (h : AList.get m k = none) :
    AList.get (m.filter p) k = none := by
  cases hf : AList.get (m.filter p) k with
  | none => rfl
  | some v =>
    have := AList.get_filter_isSome p m k (by simp [hf])
    simp [h] at this

theorem AList.get_filter_eq_some {α : Type} (p : String × α → Bool)
    {m : List (String × α)} {k : String} {v : α}
    (hnd : (m.map Prod.fst).Nodup) (h : AList.get (m.filter p) k = some v) :
    AList.get m k = some v ∧ p (k, v) = true := by
  induction m with
  | nil => simp [AList.get] at h
  | cons hd tl ih =>
    have hnd' : (tl.map Prod.fst).Nodup := (List.nodup_cons.mp (by simpa using hnd)).2
    have hhd : hd.1 ∉ tl.map Prod.fst := (List.nodup_cons.mp (by simpa using hnd)).1
    by_cases hh : hd.1 = k
    · cases hph : p hd with
      | false =>
        have hk : k ∉ tl.map Prod.fst := hh ▸ hhd
        have htl : AList.get tl k = none := by
          cases hg : AList.get tl k with
          | none => rfl
          | some w =>
            exact absurd ((AList.get_isSome_iff_mem_keys tl k).mp (by simp [hg])) hk
        rw [List.filter_cons_of_neg (by simp [hph])] at h
        rw [AList.get_filter_none p tl k htl] at h
        simp at h
      | true =>
        rw [List.filter_cons_of_pos (by simp [hph])] at h
        have hv : hd.2 = v := by simpa [AList.get, hh] using h
        have hdp : hd = (k, v) := by cases hd; simp_all
        refine ⟨by simp [AList.get, hh, hv], by rw [← hdp]; exact hph⟩
    · cases hph : p hd with
      | false =>
        rw [List.filter_cons_of_neg (by simp [hph])] at h
        have := ih hnd' h
        exact ⟨by simpa [AList.get, hh] using this.1, this.2⟩
      | true =>
        rw [List.filter_cons_of_pos (by simp [hph])] at h
        have h' : AList.get (tl.filter p) k = some v := by
          simpa [AList.get, hh] using h
        have := ih hnd' h'
        exact ⟨by simpa [AList.get, hh] using this.1, this.2⟩

theorem AList.get_filter_of_pred_false {α : Type} (p : String × α → Bool)
    {m : List (String × α)} {k : String} {v : α}
    (hnd : (m.map Prod.fst).Nodup) (h : AList.get m k = some v)
    (hp : p (k, v) = false) : AList.get (m.filter p) k = none := by
  cases hf : AList.get (m.filter p) k with
  | none => rfl
  | some w =>
    obtain ⟨hw, hpw⟩ := AList.get_filter_eq_some p hnd hf
    rw [h] at hw
    cases hw
    rw [hpw] at hp
    exact absurd hp (by simp)

/-! ## `buildNew` lemmas -/

theorem buildNew_version {T : Type} (es : List (String × T × String × UnloadPolicy)) :
    ∀ acc ver arc clk, (buildNew es acc ver arc clk).2.1 = ver + es.length := by
  induction es with
  | nil => intro acc ver arc clk; simp [buildNew]
  | cons hd rest ih =>
    intro acc ver arc clk
    obtain ⟨key, v, src, pol⟩ := hd
    simp [buildNew, ih]
    omega

theorem buildNew_get_notMem {T : Type} (es : List (String × T × String × UnloadPolicy)) :
    ∀ acc ver arc clk (k : String), k ∉ es.map (fun e => e.1) →
      AList.get (buildNew es acc ver arc clk).1 k = AList.get acc k := by
  induction es with
  | nil => intro acc ver arc clk k _; simp [buildNew]
  | cons hd rest ih =>
    intro acc ver arc clk k h
    obtain ⟨key, v, src, pol⟩ := hd
    simp at h
    push_neg at h
    simp [buildNew]
    rw [ih _ _ _ _ _ (by simpa using h.2)]
    exact AList.get_insert_ne _ _ _ _ (fun hk => h.1 (hk.symm))

theorem buildNew_get_isSome {T : Type} (es : List (String × T × String × UnloadPolicy)) :
    ∀ acc ver arc clk (k : String),
      (AList.get (buildNew es acc ver arc clk).1 k).isSome ↔
        k ∈ es.map (fun e => e.1) ∨ (AList.get acc k).isSome := by
  induction es with
  | nil => intro acc ver arc clk k; simp [buildNew]
  | cons hd rest ih =>
    intro acc ver arc clk k
    obtain ⟨key, v, src, pol⟩ := hd
    simp only [buildNew]
    rw [ih]
    by_cases hk : key = k
    · simp [hk, AList.get_insert_self]
    · rw [AList.get_insert_ne _ _ _ _ hk]
      simp [Ne.symm hk]

theorem buildNew_get_of_mem {T : Type} (es : List (String × T × String × UnloadPolicy)) :
    ∀ acc ver arc clk (k : String) (v : T) (src : String) (pol : UnloadPolicy),
      (es.map (fun e => e.1)).Nodup → (k, v, src, pol) ∈ es →
      ∃ a c vv, AList.get (buildNew es acc ver arc clk).1 k =
          some ⟨⟨a, v⟩, ⟨src, c, vv, pol⟩⟩ ∧ ver < vv ∧ vv ≤ ver + es.length := by
  induction es with
  | nil => intro acc ver arc clk k v src pol _ hmem; simp at hmem
  | cons hd rest ih =>
    intro acc ver arc clk k v src pol hnd hmem
    obtain ⟨key, v', src', pol'⟩ := hd
    have hnd' : (rest.map (fun e => e.1)).Nodup := (List.nodup_cons.mp (by simpa using hnd)).2
    have hhd : key ∉ rest.map (fun e => e.1) := (List.nodup_cons.mp (by simpa using hnd)).1
    rcases List.mem_cons.mp hmem with heq | hmem'
    · obtain ⟨h1, h2, h3, h4⟩ : key = k ∧ v' = v ∧ src' = src ∧ pol' = pol := by
        simpa [Prod.ext_iff] using heq.symm
      subst h1 h2 h3 h4
      refine ⟨arc, clk, ver + 1, ?_, by omega, by simp only [List.length_cons]; omega⟩
      simp only [buildNew]
      rw [buildNew_get_notMem rest _ _ _ _ _ hhd]
      exact AList.get_insert_self _ _ _
    · have hk : k ∈ rest.map (fun e => e.1) := by
        simpa using ⟨v, src, pol, hmem'⟩
      simp only [buildNew]
      obtain ⟨a, c, vv, hg, hlo, hhi⟩ := ih _ _ _ _ k v src pol hnd' hmem'
      exact ⟨a, c, vv, hg, by omega, by simp only [List.length_cons]; omega⟩

theorem buildNew_mem {T : Type} (es : List (String × T × String × UnloadPolicy)) :
    ∀ acc ver arc clk (p : String × Entry T), p ∈ (buildNew es acc ver arc clk).1 →
      p ∈ acc ∨ (ver < p.2.meta.version ∧ p.2.meta.version ≤ ver + es.length) := by
  induction es with
  | nil => intro acc ver arc clk p h; simpa [buildNew] using Or.inl h
  | cons hd rest ih =>
    intro acc ver arc clk p h
    obtain ⟨key, v, src, pol⟩ := hd
    simp only [buildNew] at h
    rcases ih _ _ _ _ _ h with h' | h'
    · rcases AList.mem_insert_cases h' with h'' | h''
      · right
        subst h''
        simp
      · exact Or.inl h''
    · right
      simp at h' ⊢
      omega

/-! ## Claim C1: `Store::replace_all` presence, freshness and drop contract -/

theorem replace_all_inner {T : Type} (s : Store T)
    (entries : List (String × T × String × UnloadPolicy)) :
    (s.replace_all entries).inner =
      (buildNew entries [] s.version s.arcCtr s.clock).1 ++
        s.inner.filter (fun p =>
          (AList.get (buildNew entries [] s.version s.arcCtr s.clock).1 p.1).isNone &&
          p.2.meta.policy.isPersistent) := rfl

/-- Claim C1: after `replace_all M`, a key is present iff it is a key of
`M` or was present before with `Persistent` policy; every key of `M` is
bound to the newly supplied value, source and policy under a fresh version;
and every prior removable key absent from `M` is dropped. -/
theorem claim_C1_replace_all {T : Type} (s : Store T)
    (entries : List (String × T × String × UnloadPolicy))
    (hs : (s.inner.map Prod.fst).Nodup)
    (he : (entries.map (fun e => e.1)).Nodup) :
    (∀ k, (AList.get (s.replace_all entries).inner k).isSome ↔
      (k ∈ entries.map (fun e => e.1) ∨
       ∃ e, AList.get s.inner k = some e ∧ e.meta.policy = .Persistent)) ∧
    (∀ k v src pol, (k, v, src, pol) ∈ entries →
      ∃ e, AList.get (s.replace_all entries).inner k = some e ∧
        e.value.val = v ∧ e.meta.policy = pol ∧ e.meta.source = src ∧
        s.version < e.meta.version ∧
        e.meta.version ≤ (s.replace_all entries).version) ∧
    (∀ k e, AList.get s.inner k = some e → e.meta.policy = .Removable →
      k ∉ entries.map (fun e => e.1) →
      AList.get (s.replace_all entries).inner k = none) := by
  set newE := (buildNew entries [] s.version s.arcCtr s.clock).1 with hnewE
  refine ⟨fun k => ?_, fun k v src pol hmem => ?_, fun k e hge hpol hnk => ?_⟩
  · rw [replace_all_inner, AList.get_append]
    constructor
    · intro h
      cases hn : AList.get newE k with
      | some e =>
        left
        have : (AList.get newE k).isSome := by simp [hn]
        rcases (buildNew_get_isSome entries [] s.version s.arcCtr s.clock k).mp this with
          h' | h'
        · exact h'
        · simp [AList.get] at h'
      | none =>
        rw [← hnewE, hn] at h
        cases hf : AList.get (s.inner.filter _) k with
        | none => rw [hf] at h; simp at h
        | some e =>
          obtain ⟨hg, hp⟩ := AList.get_filter_eq_some _ hs hf
          right
          refine ⟨e, hg, ?_⟩
          have := (Bool.and_eq_true _ _).mp hp
          exact (UnloadPolicy.isPersistent_iff _).mp this.2
    · intro h
      rcases h with h | ⟨e, hge', hpe⟩
      · have hiss : (AList.get newE k).isSome :=
          (buildNew_get_isSome entries [] s.version s.arcCtr s.clock k).mpr (Or.inl h)
        cases hn : AList.get newE k with
        | none => rw [hn] at hiss; simp at hiss
        | some e => simp
      · by_cases hk : k ∈ entries.map (fun e => e.1)
        · have hiss : (AList.get newE k).isSome :=
            (buildNew_get_isSome entries [] s.version s.arcCtr s.clock k).mpr (Or.inl hk)
          cases hn : AList.get newE k with
          | none => rw [hn] at hiss; simp at hiss
          | some e' => simp
        · have hn : AList.get newE k = none := by
            rw [hnewE]
            rw [buildNew_get_notMem entries [] s.version s.arcCtr s.clock k hk]
            rfl
          rw [hn]
          have hret : AList.get (s.inner.filter (fun p =>
              (AList.get newE p.1).isNone && p.2.meta.policy.isPersistent)) k = some e := by
            apply AList.get_filter_of_get _ _ hge'
            simp [hn, hpe, UnloadPolicy.isPersistent]
          rw [hret]
          simp
  · obtain ⟨a, c, vv, hg, hlo, hhi⟩ :=
      buildNew_get_of_mem entries [] s.version s.arcCtr s.clock k v src pol he hmem
    refine ⟨⟨⟨a, v⟩, ⟨src, c, vv, pol⟩⟩, ?_, rfl, rfl, rfl, hlo, ?_⟩
    · rw [replace_all_inner, AList.get_append, ← hnewE, hg]
    · have hv : (s.replace_all entries).version = s.version + entries.length := by
        show (buildNew entries [] s.version s.arcCtr s.clock).2.1 = _
        exact buildNew_version entries [] s.version s.arcCtr s.clock
      show vv ≤ (s.replace_all entries).version
      omega
  · have hn : AList.get newE k = none := by
      rw [hnewE, buildNew_get_notMem entries [] s.version s.arcCtr s.clock k hnk]
      rfl
    rw [replace_all_inner, AList.get_append, ← hnewE, hn]
    have : AList.get (s.inner.filter (fun p =>
        (AList.get newE p.1).isNone && p.2.meta.policy.isPersistent)) k = none := by
      apply AList.get_filter_of_pred_false _ hs hge
      simp [hpol, UnloadPolicy.isPersistent]
    rw [this]

/-- Witness for claim C1: replacing a store holding a removable `k1` and a
persistent `k2` with the single-entry map `k3` drops `k1`, keeps `k2` and
installs `k3`. -/
theorem claim_C1_replace_all_witness :
    AList.get ((⟨[("k1", ⟨⟨0, (1 : Nat)⟩, ⟨"p1", 0, 1, .Removable⟩⟩),
        ("k2", ⟨⟨1, (2 : Nat)⟩, ⟨"p2", 1, 2, .Persistent⟩⟩)], 2, 2, 2, []⟩ :
        Store Nat).replace_all [("k3", 3, "p3", .Removable)]).inner "k1" = none :=
  (claim_C1_replace_all _ _ (by decide) (by decide)).2.2 "k1"
    ⟨⟨0, 1⟩, ⟨"p1", 0, 1, .Removable⟩⟩ (by decide) rfl (by decide)

/-! ## Claim C10: `Persistent` does not protect against overwriting -/

/-- Claim C10: for a key whose current entry is `Persistent`, `insert`
unconditionally replaces value, metadata and policy with the newly supplied
ones, and a `replace_all` whose request contains the key likewise replaces
the persistent entry. -/
theorem claim_C10_persistent_overwrite {T : Type} (s : Store T) (k : String)
    (eOld : Entry T) (v : T) (src : String) (pol : UnloadPolicy)
    (_hold : AList.get s.inner k = some eOld)
    (_hpers : eOld.meta.policy = .Persistent) :
    (AList.get (s.insert k v src pol).1.inner k =
        some ⟨⟨s.arcCtr, v⟩, ⟨src, s.clock, s.version + 1, pol⟩⟩ ∧
      (s.insert k v src pol).2 = ⟨s.arcCtr, v⟩) ∧
    (∀ entries, (entries.map (fun e => e.1)).Nodup → (k, v, src, pol) ∈ entries →
      ∃ e, AList.get (s.replace_all entries).inner k = some e ∧
        e.value.val = v ∧ e.meta.source = src ∧ e.meta.policy = pol ∧
        s.version < e.meta.version) := by
  refine ⟨⟨?_, rfl⟩, fun entries hnd hmem => ?_⟩
  · exact AList.get_insert_self _ _ _
  · obtain ⟨a, c, vv, hg, hlo, _⟩ :=
      buildNew_get_of_mem entries [] s.version s.arcCtr s.clock k v src pol hnd hmem
    refine ⟨⟨⟨a, v⟩, ⟨src, c, vv, pol⟩⟩, ?_, rfl, rfl, rfl, hlo⟩
    rw [replace_all_inner, AList.get_append, hg]

/-- Witness for claim C10: a persistent entry is overwritten by `insert`
and by a `replace_all` that names its key. -/
theorem claim_C10_persistent_overwrite_witness :
    AList.get (((⟨[("k", ⟨⟨0, (7 : Nat)⟩, ⟨"p", 0, 1, .Persistent⟩⟩)], 1, 1, 1, []⟩ :
          Store Nat).insert "k" 9 "q" .Removable).1).inner "k" =
      some ⟨⟨1, 9⟩, ⟨"q", 1, 2, .Removable⟩⟩ ∧
    ∃ e, AList.get ((⟨[("k", ⟨⟨0, (7 : Nat)⟩, ⟨"p", 0, 1, .Persistent⟩⟩)], 1, 1, 1, []⟩ :
          Store Nat).replace_all [("k", 9, "q", .Removable)]).inner "k" = some e ∧
      e.value.val = 9 ∧ e.meta.source = "q" ∧ e.meta.policy = .Removable ∧
      1 < e.meta.version :=
  ⟨(claim_C10_persistent_overwrite _ "k" ⟨⟨0, 7⟩, ⟨"p", 0, 1, .Persistent⟩⟩ 9 "q"
      .Removable (by decide) rfl).1.1,
    (claim_C10_persistent_overwrite _ "k" ⟨⟨0, 7⟩, ⟨"p", 0, 1, .Persistent⟩⟩ 9 "q"
      .Removable (by decide) rfl).2 [("k", 9, "q", .Removable)] (by decide) (by decide)⟩

/-! ## Claim C3: versions assigned by one store are strictly increasing -/

theorem remove_version_subset {T : Type} (s : Store T) (key : String) :
    (s.remove key).1.version = s.version ∧
    ∀ p ∈ (s.remove key).1.inner, p ∈ s.inner := by
  unfold Store.remove
  cases hg : AList.get s.inner key with
  | none => exact ⟨rfl, fun p hp => hp⟩
  | some e =>
    cases hpol : e.meta.policy.isPersistent with
    | true => simp [hpol]
    | false =>
      refine ⟨by simp [hpol], fun p hp => ?_⟩
      simp [hpol] at hp
      exact AList.mem_eraseKey hp

/-- Per-operation accounting: the global counter advances by the number of
allocations, and every entry of the new map is either an old entry or
carries one of the freshly allocated versions. -/
theorem applyOp_spec {T : Type} (s : Store T) (op : StoreOp T) :
    (s.applyOp op).version = s.version + op.allocCount ∧
    ∀ p ∈ (s.applyOp op).inner,
      p ∈ s.inner ∨
        (s.version < p.2.meta.version ∧
          p.2.meta.version ≤ s.version + op.allocCount) := by
  cases op with
  | insertOp key v src pol =>
    refine ⟨rfl, fun p hp => ?_⟩
    rcases AList.mem_insert_cases hp with h | h
    · right
      subst h
      simp [StoreOp.allocCount]
    · exact Or.inl h
  | removeOp key =>
    obtain ⟨h1, h2⟩ := remove_version_subset s key
    exact ⟨by simp only [StoreOp.allocCount, Nat.add_zero]; exact h1,
      fun p hp => Or.inl (h2 p hp)⟩
  | replaceAllOp entries =>
    constructor
    · show (buildNew entries [] s.version s.arcCtr s.clock).2.1 = _
      exact buildNew_version entries [] s.version s.arcCtr s.clock
    · intro p hp
      have hp' : p ∈ (s.replace_all entries).inner := hp
      rw [replace_all_inner] at hp'
      rcases List.mem_append.mp hp' with h | h
      · rcases buildNew_mem entries [] s.version s.arcCtr s.clock p h with h' | h'
        · simp at h'
        · exact Or.inr h'
      · exact Or.inl (List.mem_filter.mp h).1

/-- Running any operation sequence from a version-consistent store yields a
strictly increasing allocation trace containing (or dominating) every entry
version. -/
theorem runOps_spec {T : Type} (ops : List (StoreOp T)) :
    ∀ s : Store T, (∀ p ∈ s.inner, p.2.meta.version ≤ s.version) →
      (∀ x ∈ (Store.runOps s ops).2, s.version < x) ∧
      List.Pairwise (· < ·) (Store.runOps s ops).2 ∧
      s.version ≤ (Store.runOps s ops).1.version ∧
      (∀ p ∈ (Store.runOps s ops).1.inner,
        p.2.meta.version ∈ (Store.runOps s ops).2 ∨ p ∈ s.inner) := by
  induction ops with
  | nil =>
    intro s hInv
    refine ⟨?_, ?_, le_refl _, ?_⟩ <;> simp [Store.runOps]
  | cons op rest ih =>
    intro s hInv
    obtain ⟨hver, hmem⟩ := applyOp_spec s op
    have hInv' : ∀ p ∈ (s.applyOp op).inner,
        p.2.meta.version ≤ (s.applyOp op).version := by
      intro p hp
      rcases hmem p hp with h | h
      · have := hInv p h
        omega
      · omega
    obtain ⟨ih1, ih2, ih3, ih4⟩ := ih (s.applyOp op) hInv'
    have hrun : Store.runOps s (op :: rest) =
        ((Store.runOps (s.applyOp op) rest).1,
          List.range' (s.version + 1) op.allocCount ++
            (Store.runOps (s.applyOp op) rest).2) := rfl
    rw [hrun]
    refine ⟨fun x hx => ?_, ?_, by simp; omega, fun p hp => ?_⟩
    · rcases List.mem_append.mp hx with h | h
      · have := (List.mem_range'_1).mp h
        omega
      · have := ih1 x h
        omega
    · simp only
      rw [List.pairwise_append]
      refine ⟨List.pairwise_lt_range' _ _, ih2, fun a ha b hb => ?_⟩
      have h1 := (List.mem_range'_1).mp ha
      have h2 := ih1 b hb
      omega
    · simp only at hp
      rcases ih4 p hp with h | h
      · exact Or.inl (List.mem_append.mpr (Or.inr h))
      · rcases hmem p h with h' | h'
        · exact Or.inr h'
        · refine Or.inl (List.mem_append.mpr (Or.inl ?_))
          rw [List.mem_range'_1]
          omega

/-- Claim C3: over any sequence of operations on a store created by
`Store::new`, the version numbers drawn from the global counter are
pairwise strictly increasing in allocation order, and every entry surviving
in the final map carries one of those allocated versions. -/
theorem claim_C3_versions_strictly_increasing {T : Type} (ops : List (StoreOp T)) :
    List.Pairwise (· < ·) (Store.runOps (Store.new T) ops).2 ∧
    ∀ p ∈ (Store.runOps (Store.new T) ops).1.inner,
      p.2.meta.version ∈ (Store.runOps (Store.new T) ops).2 := by
  obtain ⟨_, h2, _, h4⟩ := runOps_spec ops (Store.new T) (by intro p hp; simp [Store.new] at hp)
  refine ⟨h2, fun p hp => ?_⟩
  rcases h4 p hp with h | h
  · exact h
  · simp [Store.new] at h

/-- Witness for claim C3: the versions allocated by two inserts and a
two-entry `replace_all` from a fresh store are strictly increasing. -/
theorem claim_C3_versions_strictly_increasing_witness :
    List.Pairwise (· < ·) (Store.runOps (Store.new Nat)
      [StoreOp.insertOp "a" 1 "p" .Removable,
       StoreOp.insertOp "b" 2 "q" .Persistent,
       StoreOp.replaceAllOp [("a", 3, "r", .Removable), ("c", 4, "s", .Removable)]]).2 :=
  (claim_C3_versions_strictly_increasing _).1

/-! ## `LiveDir::do_scan` (`src/controller/dir.rs`)

The directory listing (hidden-name skip, `max_entries`, `KeyPattern`
extraction) produces the `fs_entries : key → load-name` map; the embedding
takes that map as input together with the loader outcome per load-name, and
models the load phase and the owned-keys reconcile phase that act on the
store. -/

/-- `fmtstruct::LoadResult` as consumed by `do_scan` and `Live::load`
(`info` flattened to its `path`). -/
inductive LoadResult (T : Type) where
  | Ok (value : T) (path : String)
  | Invalid (e : String)
  | NotFound
deriving DecidableEq, Repr

/-- `ScanResult` (`src/controller/pattern.rs`). -/
structure ScanResult where
  added : List String
  updated : List String
  failed : List (String × String)
  removed : List String
  retained : List String
deriving DecidableEq, Repr

def ScanResult.empty : ScanResult := ⟨[], [], [], [], []⟩

/-- The `for (key, load_name) in &fs_entries` loop of `do_scan`: load each
entry, inserting successes into the store (recording added/updated by
whether the key was absent), keeping the prior good value on `Invalid`
(the key stays live only if the store already holds it), and skipping
`NotFound`. -/
def scanLoad {T : Type} (canon : String → Option String)
    (load : String → LoadResult T) (policy : UnloadPolicy) :
    List (String × String) → Store T → List String → ScanResult →
    Store T × List String × ScanResult
  | [], store, fsKeys, r => (store, fsKeys, r)
  | (key, loadName) :: rest, store, fsKeys, r =>
    let isNew := (Store.get store key).isNone
    match load loadName with
    | .Ok value path =>
      let sourcePath := (canon path).getD path
      let store' := (store.insert key value sourcePath policy).1
      let r' := if isNew then { r with added := r.added ++ [key] }
                else { r with updated := r.updated ++ [key] }
      scanLoad canon load policy rest store' (fsKeys ++ [key]) r'
    | .Invalid e =>
      let fsKeys' := if (Store.get store key).isSome then fsKeys ++ [key] else fsKeys
      scanLoad canon load policy rest store fsKeys'
        { r with failed := r.failed ++ [(key, e)] }
    | .NotFound => scanLoad canon load policy rest store fsKeys r

/-- `old_owned.difference(&fs_keys)` — the keys `do_scan` passes to
`store.remove`. -/
def removeCalls (oldOwned fsKeys : List String) : List String :=
  oldOwned.filter (fun k => !fsKeys.contains k)

/-- The reconcile loop of `do_scan`: `store.remove` each checked key,
recording `removed` on success; on failure (persistent policy) record
`retained` and re-insert the key into the live-set. -/
def scanRemove {T : Type} :
    List String → Store T → List String → ScanResult →
    Store T × List String × ScanResult
  | [], store, fsKeys, r => (store, fsKeys, r)
  | key :: rest, store, fsKeys, r =>
    let out := store.remove key
    match out.2 with
    | .ok _ => scanRemove rest out.1 fsKeys { r with removed := r.removed ++ [key] }
    | .error _ =>
      scanRemove rest out.1 (fsKeys ++ [key]) { r with retained := r.retained ++ [key] }

/-- `LiveDir::do_scan` on the abstracted listing: load phase from an empty
live-set and empty result, then reconcile against the controller's prior
owned keys.  Returns the final store, the new owned-keys set and the scan
result. -/
def do_scan {T : Type} (store : Store T) (canon : String → Option String)
    (load : String → LoadResult T) (policy : UnloadPolicy)
    (fsEntries : List (String × String)) (owned : List String) :
    Store T × List String × ScanResult :=
  let out1 := scanLoad canon load policy fsEntries store [] ScanResult.empty
  scanRemove (removeCalls owned out1.2.1) out1.1 out1.2.1 out1.2.2

/-! ## Claim C4: `do_scan` removes only owned keys -/

theorem insert_fst_inner {T : Type} (s : Store T) (key : String) (v : T)
    (src : String) (pol : UnloadPolicy) :
    (s.insert key v src pol).1.inner =
      AList.insert s.inner key
        ⟨⟨s.arcCtr, v⟩, ⟨src, s.clock, s.version + 1, pol⟩⟩ := rfl

theorem insert_get_isSome {T : Type} (s : Store T) (key k : String) (v : T)
    (src : String) (pol : UnloadPolicy) (h : (Store.get s k).isSome) :
    (Store.get (s.insert key v src pol).1 k).isSome := by
  unfold Store.get
  rw [insert_fst_inner]
  by_cases hk : key = k
  · rw [hk, AList.get_insert_self]
    simp
  · rw [AList.get_insert_ne _ _ _ _ hk]
    exact h

theorem remove_get_ne {T : Type} (s : Store T) (key k : String) (h : k ≠ key) :
    Store.get (s.remove key).1 k = Store.get s k := by
  unfold Store.remove
  cases hg : AList.get s.inner key with
  | none => rfl
  | some e =>
    cases hpol : e.meta.policy.isPersistent with
    | true => simp [Store.get, hpol]
    | false =>
      simp [Store.get, hpol, AList.get_eraseKey_ne s.inner key k (Ne.symm h)]

theorem scanLoad_preserves_present {T : Type} (canon : String → Option String)
    (load : String → LoadResult T) (policy : UnloadPolicy) :
    ∀ (fsEntries : List (String × String)) (store : Store T)
      (fsKeys : List String) (r : ScanResult) (k : String),
      (Store.get store k).isSome →
      (Store.get (scanLoad canon load policy fsEntries store fsKeys r).1 k).isSome := by
  intro fsEntries
  induction fsEntries with
  | nil => intro store fsKeys r k h; exact h
  | cons hd rest ih =>
    intro store fsKeys r k h
    obtain ⟨key, loadName⟩ := hd
    cases hl : load loadName with
    | Ok value path =>
      simp only [scanLoad, hl]
      exact ih _ _ _ k (insert_get_isSome store key k value _ policy h)
    | Invalid e =>
      simp only [scanLoad, hl]
      exact ih _ _ _ k h
    | NotFound =>
      simp only [scanLoad, hl]
      exact ih _ _ _ k h

theorem scanRemove_preserves_other {T : Type} :
    ∀ (keys : List String) (store : Store T) (fsKeys : List String)
      (r : ScanResult) (k : String), k ∉ keys →
      Store.get (scanRemove keys store fsKeys r).1 k = Store.get store k := by
  intro keys
  induction keys with
  | nil => intro store fsKeys r k _; rfl
  | cons key rest ih =>
    intro store fsKeys r k hk
    have hne : k ≠ key := fun h => hk (h ▸ List.mem_cons_self _ _)
    have hrest : k ∉ rest := fun h => hk (List.mem_cons_of_mem _ h)
    cases hout : (store.remove key).2 with
    | ok v =>
      simp only [scanRemove, hout]
      rw [ih _ _ _ k hrest, remove_get_ne store key k hne]
    | error e =>
      simp only [scanRemove, hout]
      rw [ih _ _ _ k hrest, remove_get_ne store key k hne]

/-- Claim C4: `do_scan` never removes a store key outside the controller's
owned-keys set — a key absent from `owned` is never among the keys passed
to `store.remove` and is still present in the store after the scan,
whatever the listing and loader outcomes. -/
theorem claim_C4_scan_removes_only_owned {T : Type} (store : Store T)
    (canon : String → Option String) (load : String → LoadResult T)
    (policy : UnloadPolicy) (fsEntries : List (String × String))
    (owned : List String) (k : String)
    (hpresent : (Store.get store k).isSome) (howned : k ∉ owned) :
    (∀ fsKeys : List String, k ∉ removeCalls owned fsKeys) ∧
    (Store.get (do_scan store canon load policy fsEntries owned).1 k).isSome := by
  have hnocall : ∀ fsKeys : List String, k ∉ removeCalls owned fsKeys := by
    intro fsKeys hk
    exact howned (List.mem_filter.mp hk).1
  refine ⟨hnocall, ?_⟩
  unfold do_scan
  rw [scanRemove_preserves_other _ _ _ _ k (hnocall _)]
  exact scanLoad_preserves_present canon load policy fsEntries store [] ScanResult.empty
    k hpresent

/-- Witness for claim C4: a key owned by another controller survives a scan
that sees an empty directory. -/
theorem claim_C4_scan_removes_only_owned_witness :
    (Store.get (do_scan
        (⟨[("other", ⟨⟨0, (5 : Nat)⟩, ⟨"p", 0, 1, .Removable⟩⟩)], 1, 1, 1, []⟩ :
          Store Nat)
        (fun _ => none) (fun _ => LoadResult.NotFound) .Removable [] ["mine"]).1
      "other").isSome :=
  (claim_C4_scan_removes_only_owned _ _ _ _ _ _ _ (by decide) (by decide)).2

/-! ## `FileSource` (`src/loader/source/file.rs`)

Paths are lists of components; the filesystem is abstracted by its
`canonicalize` outcome per path and its raw byte read.  A Rust
`Component::ParentDir` is the component `".."`. -/

/-- Failure kind of `tokio::fs::canonicalize` (the code only distinguishes
`ErrorKind::NotFound` from every other I/O error). -/
inductive CanonErr where
  | notFound
  | other
deriving DecidableEq, Repr

/-- Abstract filesystem backing a `FileSource`. -/
structure FsModel where
  canon : List String → Except CanonErr (List String)
  readBytes : List String → Except Unit (List Nat)

/-- The `FmtError` cases `FileSource` can surface. -/
inductive FmtError where
  | NotFound
  | IoError
  | SandboxViolation
deriving DecidableEq, Repr

/-- `FileSource::resolve_secure`: join the key onto the root, reject any
parent-dir component, canonicalize the root (any failure is an I/O error),
canonicalize the joined path, and require the result to start with the
canonical root. -/
def resolve_secure (fs : FsModel) (root key : List String) :
    Except FmtError (List String) :=
  let path := root ++ key
  if (".." : String) ∈ key then .error .SandboxViolation
  else
    match fs.canon root with
    | .error _ => .error .IoError
    | .ok canonicalRoot =>
      match fs.canon path with
      | .ok canonicalPath =>
        if canonicalRoot <+: canonicalPath then .ok canonicalPath
        else .error .SandboxViolation
      | .error .notFound => .error .NotFound
      | .error .other => .error .IoError

/-- `FileSource::read`: resolve securely, then read the canonical path
(read failures become I/O errors). -/
def FileSource.read (fs : FsModel) (root key : List String) :
    Except FmtError (List Nat) :=
  match resolve_secure fs root key with
  | .error e => .error e
  | .ok path =>
    match fs.readBytes path with
    | .ok b => .ok b
    | .error _ => .error .IoError

/-! ## Claim C5: sandbox containment of `FileSource::read` -/

/-- Claim C5: `read` succeeds only when the key has no parent-dir component
and the canonicalized joined path lies under the canonicalized root; a
parent-dir component or an escaping canonical path yields
`SandboxViolation`, and a nonexistent path yields `NotFound`. -/
theorem claim_C5_file_source_sandbox (fs : FsModel) (root key : List String) :
    ((".." : String) ∈ key →
      FileSource.read fs root key = .error .SandboxViolation) ∧
    (∀ b, FileSource.read fs root key = .ok b →
      (".." : String) ∉ key ∧
      ∃ cr cp, fs.canon root = .ok cr ∧ fs.canon (root ++ key) = .ok cp ∧
        cr <+: cp) ∧
    (∀ cr cp, (".." : String) ∉ key → fs.canon root = .ok cr →
      fs.canon (root ++ key) = .ok cp → ¬ cr <+: cp →
      FileSource.read fs root key = .error .SandboxViolation) ∧
    (∀ cr, (".." : String) ∉ key → fs.canon root = .ok cr →
      fs.canon (root ++ key) = .error .notFound →
      FileSource.read fs root key = .error .NotFound) := by
  refine ⟨fun hdot => ?_, fun b hok => ?_, fun cr cp hdot hcr hcp hpre => ?_,
    fun cr hdot hcr hcp => ?_⟩
  · simp [FileSource.read, resolve_secure, hdot]
  · refine ⟨?_, ?_⟩
    · intro hdot
      simp [FileSource.read, resolve_secure, hdot] at hok
    · by_cases hdot : (".." : String) ∈ key
      · simp [FileSource.read, resolve_secure, hdot] at hok
      · cases hcr : fs.canon root with
        | error e => simp [FileSource.read, resolve_secure, hdot, hcr] at hok
        | ok cr =>
          cases hcp : fs.canon (root ++ key) with
          | error e =>
            cases e <;> simp [FileSource.read, resolve_secure, hdot, hcr, hcp] at hok
          | ok cp =>
            by_cases hpre : cr <+: cp
            · exact ⟨cr, cp, rfl, rfl, hpre⟩
            · simp [FileSource.read, resolve_secure, hdot, hcr, hcp, hpre] at hok
  · simp [FileSource.read, resolve_secure, hdot, hcr, hcp, hpre]
  · simp [FileSource.read, resolve_secure, hdot, hcr, hcp]

/-- Witness for claim C5: in a one-file filesystem, a parent-dir key is a
sandbox violation and a missing file is `NotFound`. -/
theorem claim_C5_file_source_sandbox_witness :
    (FileSource.read
        ⟨fun p => if p = ["root"] ∨ p = ["root", "a"] then .ok p
                  else .error .notFound,
          fun p => if p = ["root", "a"] then .ok [1, 2] else .error ()⟩
        ["root"] [".."] = .error .SandboxViolation) ∧
    (FileSource.read
        ⟨fun p => if p = ["root"] ∨ p = ["root", "a"] then .ok p
                  else .error .notFound,
          fun p => if p = ["root", "a"] then .ok [1, 2] else .error ()⟩
        ["root"] ["missing"] = .error .NotFound) :=
  ⟨(claim_C5_file_source_sandbox _ ["root"] [".."]).1 (by decide),
    (claim_C5_file_source_sandbox _ ["root"] ["missing"]).2.2.2 ["root"]
      (by decide) rfl rfl⟩

/-! ## Debouncer coalescing (`src/signal/worker.rs`) -/

/-- `EventKind` (`src/signal/mod.rs`). -/
inductive EventKind where
  | Create
  | Modify
  | Remove
deriving DecidableEq, Repr

/-- `DebounceState` — per-path pending entry. -/
structure DebounceState where
  last_seen : Nat
  kind : EventKind
deriving DecidableEq, Repr

/-- The kind stored by the `and_modify` closure of `handle_raw_event`:
latest kind when `coalesce` is off, otherwise the coalescing match
(`Remove` then `Modify` is noise and keeps `Remove`; `Create` then
`Modify` keeps `Create`). -/
def coalesceKind (coalesce : Bool) (prev next : EventKind) : EventKind :=
  if !coalesce then next
  else
    match prev, next with
    | .Create, .Modify => .Create
    | .Create, .Remove => .Remove
    | .Modify, .Remove => .Remove
    | .Remove, .Modify => .Remove
    | _, _ => next

/-- Per-path update of the `pending` map in `handle_raw_event`: refresh
`last_seen` and coalesce against an existing entry, or insert the raw kind
for a new path. -/
def handleRawPath (coalesce : Bool) (now : Nat) (st : Option DebounceState)
    (kind : EventKind) : DebounceState :=
  match st with
  | some s => ⟨now, coalesceKind coalesce s.kind kind⟩
  | none => ⟨now, kind⟩

/-- Modelled from the spec: the coalesce table of §4.3 (rows = previous
pending kind, columns = next raw kind). -/
def specCoalesceTable : EventKind → EventKind → EventKind
  | .Create, .Create => .Create
  | .Create, .Modify => .Create
  | .Create, .Remove => .Remove
  | .Modify, .Create => .Create
  | .Modify, .Modify => .Modify
  | .Modify, .Remove => .Remove
  | .Remove, .Create => .Create
  | .Remove, .Modify => .Remove
  | .Remove, .Remove => .Remove

/-- Claim C6: for every previous pending kind and next raw kind, the
debouncer's stored coalesced kind equals the spec's coalesce-table entry
when `coalesce` is on, and equals the latest raw kind when it is off. -/
theorem claim_C6_coalesce_table (now t : Nat) (prev next : EventKind) :
    (handleRawPath true now (some ⟨t, prev⟩) next).kind =
      specCoalesceTable prev next ∧
    (handleRawPath false now (some ⟨t, prev⟩) next).kind = next := by
  cases prev <;> cases next <;> exact ⟨rfl, rfl⟩

/-- Witness for claim C6 at the `Remove` then `Modify` corner: with
coalescing the stored kind stays `Remove`; without it the latest kind
wins. -/
theorem claim_C6_coalesce_table_witness :
    (handleRawPath true 5 (some ⟨0, EventKind.Remove⟩) EventKind.Modify).kind =
      specCoalesceTable EventKind.Remove EventKind.Modify ∧
    (handleRawPath false 5 (some ⟨0, EventKind.Remove⟩) EventKind.Modify).kind =
      EventKind.Modify :=
  claim_C6_coalesce_table 5 0 EventKind.Remove EventKind.Modify

/-! ## Target filter (`src/signal/target.rs`) -/

/-- Watcher configuration (`src/signal/mod.rs`), `Duration` as
milliseconds. -/
structure Config where
  debounce : Nat
  coalesce : Bool
  ignore_hidden : Bool
  listen_events : Option (List EventKind)

/-- A compiled glob, abstracted as its match predicate on a relative
path. -/
def Glob : Type := List String → Bool

/-- `globset::GlobSet`: a set of compiled globs; `is_match` holds when any
glob matches. -/
def GlobSet : Type := List Glob

def GlobSet.is_match (gs : GlobSet) (rel : List String) : Bool :=
  gs.any (fun g => g rel)

/-- `CompiledTarget`: a `File`/`Directory` path, or a `Filtered` directory
whose include set is `none` when the requested include list was empty. -/
inductive CompiledTarget where
  | File (path : List String)
  | Directory (path : List String)
  | Filtered (path : List String) (inc : Option GlobSet) (exc : GlobSet)

/-- The `Filtered` arm of `CompiledTarget::new`: an empty include list
compiles to `none`. -/
def CompiledTarget.newFiltered (path : List String) (inc exc : GlobSet) :
    CompiledTarget :=
  .Filtered path (if inc.isEmpty then none else some inc) exc

/-- `path.strip_prefix(root)`. -/
def stripRoot (root path : List String) : Option (List String) :=
  if root <+: path then some (path.drop root.length) else none

/-- The hidden-component test of `CompiledTarget::matches`: begins with
the character `.` (`s.starts_with('.')`) but is neither the literal `.`
nor `..`. -/
def isHiddenComp (s : String) : Bool :=
  s.toList.head? == some '.' && !(s == ".") && !(s == "..")

/-- `CompiledTarget::matches`: relativize against the root (falling back
to the full path), reject hidden components when `ignore_hidden`, then
dispatch on the target form. -/
def CompiledTarget.matches (t : CompiledTarget) (path : List String)
    (config : Config) (root : List String) : Bool :=
  let relative_path := (stripRoot root path).getD path
  if config.ignore_hidden && relative_path.any isHiddenComp then false
  else
    match t with
    | .File target_path => relative_path == target_path
    | .Directory _ => true
    | .Filtered _ inc exc =>
      if exc.is_match relative_path then false
      else
        match inc with
        | some set => set.is_match relative_path
        | none => true

/-- The hidden-component rejection, as the spec words it: only relevant
when `ignore_hidden` is on, and the literal `.` / `..` components are
allowed. -/
def HiddenOk (config : Config) (rel : List String) : Prop :=
  config.ignore_hidden = true →
    ∀ s ∈ rel, ¬(s.toList.head? = some '.' ∧ s ≠ "." ∧ s ≠ "..")

theorem isHiddenComp_false_iff (s : String) :
    isHiddenComp s = false ↔ ¬(s.toList.head? = some '.' ∧ s ≠ "." ∧ s ≠ "..") := by
  by_cases h1 : s.toList.head? = some '.'
  · by_cases h2 : s = "."
    · simp [isHiddenComp, h1, h2]
    · by_cases h3 : s = ".."
      · simp [isHiddenComp, h1, h2, h3]
      · simp [isHiddenComp, h1, h2, h3]
  · simp [isHiddenComp, h1]

theorem hidden_check_iff (config : Config) (rel : List String) :
    (config.ignore_hidden && rel.any isHiddenComp) = false ↔
      HiddenOk config rel := by
  unfold HiddenOk
  cases hih : config.ignore_hidden with
  | false => simp
  | true =>
    simp only [Bool.true_and, true_implies]
    rw [List.any_eq_false]
    constructor
    · intro h s hs
      exact (isHiddenComp_false_iff s).mp (by simpa using h s hs)
    · intro h s hs
      simp only [Bool.not_eq_true]
      exact (isHiddenComp_false_iff s).mpr (h s hs)

/-- Claim C7: the target filter relativizes the path against the root,
rejects hidden components when `ignore_hidden` is set, and then a `File`
target matches exactly its path, a `Directory` target matches
unconditionally, and a compiled `Filtered` target matches iff the exclude
set does not match and the include list is empty or matches. -/
theorem claim_C7_target_filter (config : Config) (root path targetPath : List String)
    (inc exc : GlobSet) :
    ((CompiledTarget.File targetPath).matches path config root = true ↔
      HiddenOk config ((stripRoot root path).getD path) ∧
      (stripRoot root path).getD path = targetPath) ∧
    ((CompiledTarget.Directory targetPath).matches path config root = true ↔
      HiddenOk config ((stripRoot root path).getD path)) ∧
    ((CompiledTarget.newFiltered targetPath inc exc).matches path config root = true ↔
      HiddenOk config ((stripRoot root path).getD path) ∧
      exc.is_match ((stripRoot root path).getD path) = false ∧
      (inc = [] ∨ inc.is_match ((stripRoot root path).getD path) = true)) := by
  set rel := (stripRoot root path).getD path with hrel
  cases hcond : (config.ignore_hidden && rel.any isHiddenComp) with
  | true =>
    have hno : ¬ HiddenOk config rel := by
      intro h
      have := (hidden_check_iff config rel).mpr h
      rw [hcond] at this
      exact absurd this (by simp)
    refine ⟨?_, ?_, ?_⟩ <;>
      simp only [CompiledTarget.matches, CompiledTarget.newFiltered, ← hrel, hcond] <;>
      simp [hno]
  | false =>
    have hyes := (hidden_check_iff config rel).mp hcond
    refine ⟨?_, ?_, ?_⟩
    · simp only [CompiledTarget.matches, ← hrel, hcond]
      simp [hyes]
    · simp only [CompiledTarget.matches, ← hrel, hcond]
      simp [hyes]
    · simp only [CompiledTarget.matches, CompiledTarget.newFiltered, ← hrel, hcond]
      cases hexc : exc.is_match rel with
      | true => simp [hexc, hyes]
      | false =>
        cases hinc : inc.isEmpty with
        | true =>
          have hinc' : inc = [] := List.isEmpty_iff.mp hinc
          simp [hinc, hexc, hyes, hinc']
        | false =>
          have hinc' : inc ≠ [] := fun h => by simp [h] at hinc
          simp [hinc, hexc, hyes, hinc']

/-- Witness for claim C7: under the root `root`, the file target `a.json`
matches the event path `root/a.json`. -/
theorem claim_C7_target_filter_witness :
    (CompiledTarget.File ["a.json"]).matches ["root", "a.json"]
      ⟨500, true, true, none⟩ ["root"] = true :=
  ((claim_C7_target_filter ⟨500, true, true, none⟩ ["root"] ["root", "a.json"]
      ["a.json"] [] []).1).mpr
    ⟨by unfold HiddenOk stripRoot; decide, by unfold stripRoot; decide⟩

/-! ## `KeyPattern::extract_identity` (`src/controller/pattern.rs`) -/

/-- `name.rfind('.')` on a name given as its character list: index of the
last `'.'`. -/
def lastDot : List Char → Option Nat
  | [] => none
  | c :: rest =>
    match lastDot rest with
    | some i => some (i + 1)
    | none => if c = '.' then some 0 else none

/-- `KeyPattern::extract_identity`: the name up to its last dot (the whole
name when it has no dot); an empty key yields `none`. -/
def KeyPattern.extract_identity (name : List Char) : Option (List Char) :=
  let key :=
    match lastDot name with
    | some i => name.take i
    | none => name
  if key.isEmpty then none else some key

/-! ## Claim C8: `Identity` key extraction -/

/-- Counterexample to claim C8: `.hidden.json` starts with `'.'` yet
`extract_identity` yields the key `.hidden` rather than no key. -/
theorem claim_C8_identity_counterexample :
    (".hidden.json".toList.head? = some '.') ∧
    KeyPattern.extract_identity (".hidden.json".toList) =
      some (".hidden".toList) := by decide

theorem lastDot_eq_none {l : List Char} (h : '.' ∉ l) : lastDot l = none := by
  induction l with
  | nil => rfl
  | cons c rest ih =>
    have hc : c ≠ '.' := fun hc => h (hc ▸ List.mem_cons_self _ _)
    have hrest : '.' ∉ rest := fun hr => h (List.mem_cons_of_mem _ hr)
    simp [lastDot, ih hrest, Ne.symm hc]
    intro hc'
    exact absurd hc' hc

theorem lastDot_append {base ext : List Char} (h : '.' ∉ ext) :
    lastDot (base ++ '.' :: ext) = some base.length := by
  induction base with
  | nil => simp [lastDot, lastDot_eq_none h]
  | cons c rest ih => simp [lastDot, ih]

/-- Claim C8 (amended): `Identity` strips the last extension
(`app.json → app`, `a.b.c.json → a.b.c`); a name yields no key exactly when
the part before its last dot is empty, so a leading-dot name with no
further dot yields none, while a dotted hidden name such as `.hidden.json`
yields `.hidden`. -/
theorem claim_C8_identity_amended :
    (∀ base ext : List Char, base ≠ [] → '.' ∉ ext →
      KeyPattern.extract_identity (base ++ '.' :: ext) = some base) ∧
    (∀ rest : List Char, '.' ∉ rest →
      KeyPattern.extract_identity ('.' :: rest) = none) := by
  constructor
  · intro base ext hb he
    unfold KeyPattern.extract_identity
    rw [lastDot_append he]
    simp [List.take_left, hb]
  · intro rest he
    unfold KeyPattern.extract_identity
    have h0 : lastDot ('.' :: rest) = some 0 := by
      simp [lastDot, lastDot_eq_none he]
    rw [h0]
    simp

/-- Witness for claim C8 (amended): `app.json` extracts to `app`, and
`.hidden` (no second dot) extracts to none. -/
theorem claim_C8_identity_amended_witness :
    KeyPattern.extract_identity ("app".toList ++ '.' :: "json".toList) =
      some ("app".toList) ∧
    KeyPattern.extract_identity ('.' :: "hidden".toList) = none :=
  ⟨claim_C8_identity_amended.1 _ _ (by decide) (by decide),
    claim_C8_identity_amended.2 _ (by decide)⟩

/-! ## `Live::load` (`src/controller/live.rs`) -/

/-- `Live::load` with the loader outcome for the key supplied as input: on
success, canonicalize the origin (falling back to the reported path) and
insert into the store under the default (`Removable`) policy; `NotFound`
and `Invalid` surface an error and leave the store untouched. -/
def Live.load {T : Type} (store : Store T) (key : String)
    (loadRes : LoadResult T) (canon : String → Option String) :
    Store T × Except String Unit :=
  match loadRes with
  | .Ok value path =>
    let sourcePath := (canon path).getD path
    ((store.insert key value sourcePath .Removable).1, .ok ())
  | .NotFound => (store, .error "NotFound")
  | .Invalid e => (store, .error e)

/-! ## Claim C9: `load(); load()` on an unchanged source -/

/-- Counterexample to claim C9 as stated: after two loads of the same
unchanged source, the stored value is a fresh allocation each time, so the
two stored values are not identity-equal (their `Arc` identities differ). -/
theorem claim_C9_load_twice_counterexample :
    (Store.get ((Live.load (Store.new Nat) "app" (.Ok 1 "app.json")
        (fun p => some p)).1) "app").map Arc.id ≠
    (Store.get ((Live.load ((Live.load (Store.new Nat) "app" (.Ok 1 "app.json")
        (fun p => some p)).1) "app" (.Ok 1 "app.json")
        (fun p => some p)).1) "app").map Arc.id := by decide

/-- Claim C9 (amended): two successive loads of an unchanged source store
a structurally equal value both times — each call installs a freshly
allocated value, so the two stored values are not pointer-identical — and
advance the entry's metadata version by exactly one per call. -/
theorem claim_C9_load_twice_amended {T : Type} (store : Store T) (key : String)
    (v : T) (path : String) (canon : String → Option String) :
    ∃ e1 e2 : Entry T,
      AList.get ((Live.load store key (.Ok v path) canon).1).inner key = some e1 ∧
      AList.get ((Live.load ((Live.load store key (.Ok v path) canon).1) key
        (.Ok v path) canon).1).inner key = some e2 ∧
      e1.value.val = v ∧ e2.value.val = v ∧
      e1.meta.version = store.version + 1 ∧
      e2.meta.version = store.version + 2 ∧
      e1.value.id ≠ e2.value.id := by
  refine ⟨⟨⟨store.arcCtr, v⟩,
      ⟨(canon path).getD path, store.clock, store.version + 1, .Removable⟩⟩,
    ⟨⟨store.arcCtr + 1, v⟩,
      ⟨(canon path).getD path, store.clock + 1, store.version + 2, .Removable⟩⟩,
    ?_, ?_, rfl, rfl, rfl, rfl, by simp⟩
  · exact AList.get_insert_self _ _ _
  · exact AList.get_insert_self _ _ _

/-- Witness for claim C9 (amended) on a fresh `Nat` store with an unchanged
source reporting `"app.json"`. -/
theorem claim_C9_load_twice_amended_witness :
    ∃ e1 e2 : Entry Nat,
      AList.get ((Live.load (Store.new Nat) "app" (.Ok 1 "app.json")
        (fun p => some p)).1).inner "app" = some e1 ∧
      AList.get ((Live.load ((Live.load (Store.new Nat) "app" (.Ok 1 "app.json")
        (fun p => some p)).1) "app" (.Ok 1 "app.json")
        (fun p => some p)).1).inner "app" = some e2 ∧
      e1.value.val = 1 ∧ e2.value.val = 1 ∧
      e1.meta.version = (Store.new Nat).version + 1 ∧
      e2.meta.version = (Store.new Nat).version + 2 ∧
      e1.value.id ≠ e2.value.id :=
  claim_C9_load_twice_amended (Store.new Nat) "app" 1 "app.json" (fun p => some p)

end LiveSpec
